import Mathlib

/-!
Verification development for the data-indexing-service repository.

The Python sources under `src/data_indexing/` are shallowly embedded as Lean
definitions: text is `List Char` (wrapped into `String` at the interfaces),
Python dicts become structures with optional fields, fallible calls return
`Except`, and the two nested worker pools are modelled by an explicit
completion order that is correlated back to task indices, exactly as
`concurrent.futures.Executor.map` does.
-/

set_option maxHeartbeats 1000000

namespace DataIndexing

/-- Whitespace test matching Python's `str.isspace` / regex `\s` on ASCII code
points: space, tab, LF, VT, FF, CR and the separator controls U+001C-U+001F.
Used by `str.strip`, `re.sub(r'\s+', ...)` and whitespace tokenization. -/
def isSpacePy (c : Char) : Bool :=
  c.toNat == 32 || (decide (9 ≤ c.toNat) && decide (c.toNat ≤ 13)) ||
    (decide (28 ≤ c.toNat) && decide (c.toNat ≤ 31))

/-- Character-wise model of Python's `str.lower`: maps `A`-`Z` to `a`-`z` and
fixes every other character. Faithful on ASCII and on code points without a
lowercase mapping (such as U+1D2C MODIFIER LETTER CAPITAL A). -/
def pyToLower (c : Char) : Char :=
  if 65 ≤ c.toNat ∧ c.toNat ≤ 90 then Char.ofNat (c.toNat + 32) else c

/-- Membership in Python's `string.punctuation`, the 32 ASCII characters in the
ranges 33-47, 58-64, 91-96 and 123-126. -/
def isPunctPy (c : Char) : Bool :=
  (decide (33 ≤ c.toNat) && decide (c.toNat ≤ 47)) ||
    (decide (58 ≤ c.toNat) && decide (c.toNat ≤ 64)) ||
    (decide (91 ≤ c.toNat) && decide (c.toNat ≤ 96)) ||
    (decide (123 ≤ c.toNat) && decide (c.toNat ≤ 126))

/-- U+1D2C MODIFIER LETTER CAPITAL A, a character with no lowercase mapping
whose NFKD compatibility decomposition is the ASCII letter `A`. -/
def modCapitalA : Char := Char.ofNat 7468

/-- Character-level model of `unicodedata.normalize('NFKD', ·)` for the code
points exercised in this development: every ASCII character is NFKD-fixed, and
U+1D2C decomposes to `A` (its decomposition mapping is `<super> 0041`). -/
def nfkdChar (c : Char) : List Char :=
  if c = modCapitalA then [Char.ofNat 65] else [c]

/-- Model of `unicodedata.combining(c) != 0` restricted to the main combining
diacritical block U+0300-U+036F; in particular no ASCII character and none of
the characters used below is combining. -/
def combiningChar (c : Char) : Bool :=
  decide (768 ≤ c.toNat) && decide (c.toNat ≤ 879)

/-- Python `str.strip()`: drop whitespace from both ends. -/
def stripL (l : List Char) : List Char :=
  ((l.dropWhile isSpacePy).reverse.dropWhile isSpacePy).reverse

/-- Stage 1 of the chunk pipeline, `clean_text`: `text.lower().strip()`. -/
def cleanTextL (l : List Char) : List Char :=
  stripL (l.map pyToLower)

/-- Model of `re.sub(r'\s+', ' ', text)`: each maximal run of whitespace
characters is replaced by a single space. -/
def subWsRuns : List Char → List Char
  | [] => []
  | [c] => if isSpacePy c then [' '] else [c]
  | c :: d :: rest =>
    if isSpacePy c then
      (if isSpacePy d then subWsRuns (d :: rest) else ' ' :: subWsRuns (d :: rest))
    else c :: subWsRuns (d :: rest)

/-- Stage 2, `normalize_unicode`: NFKD decomposition, removal of combining
characters, removal of the non-ASCII code points (`[^\x00-\x7F]+`), collapse of
whitespace runs to single spaces, and a final strip. -/
def normalizeUnicodeL (l : List Char) : List Char :=
  stripL (subWsRuns (((l.flatMap nfkdChar).filter
    (fun c => !combiningChar c)).filter (fun c => decide (c.toNat ≤ 127))))

/-- Stage 3, `remove_punctuation`: `text.translate` with a table deleting every
`string.punctuation` character. -/
def removePunctuationL (l : List Char) : List Char :=
  l.filter (fun c => !isPunctPy c)

/-- Extension of a token list by a non-whitespace character `c` read just
before `rest`: `c` either opens a fresh word (at the end of the input or
before whitespace) or extends the first word of the remaining tokens. -/
def consToken (c : Char) (rest : List Char) (ts : List (List Char)) : List (List Char) :=
  match rest, ts with
  | [], _ => [[c]]
  | _ :: _, [] => [[c]]
  | d :: _, t :: ts' => if isSpacePy d then [c] :: t :: ts' else (c :: t) :: ts'

/-- Model of `nltk.word_tokenize` as whitespace tokenization: maximal runs of
non-whitespace characters, in order. This is faithful for the
punctuation-free, whitespace-separated text reaching the tokenizer in this
pipeline. -/
def wordTokenizeL : List Char → List (List Char)
  | [] => []
  | c :: rest =>
    if isSpacePy c then wordTokenizeL rest
    else consToken c rest (wordTokenizeL rest)

/-- Python `" ".join(words)`. -/
def joinWords : List (List Char) → List Char
  | [] => []
  | [w] => w
  | w :: ws => w ++ ' ' :: joinWords ws

/-- ASCII apostrophe, written by code point to keep it out of string literals. -/
def apoc : String := String.singleton (Char.ofNat 39)

/-- NLTK English stopword corpus (`stopwords.words('english')`), 179 entries;
the contracted forms contain an apostrophe and are assembled via `apoc`. -/
def stopwordsEnglish : List String :=
  ["i", "me", "my", "myself", "we", "our", "ours", "ourselves", "you",
   "your", "yours", "yourself", "yourselves", "he", "him", "his", "himself",
   "she", "her", "hers", "herself", "it", "its", "itself", "they", "them",
   "their", "theirs", "themselves", "what", "which", "who", "whom", "this",
   "that", "these", "those", "am", "is", "are", "was", "were", "be", "been",
   "being", "have", "has", "had", "having", "do", "does", "did", "doing",
   "a", "an", "the", "and", "but", "if", "or", "because", "as", "until",
   "while", "of", "at", "by", "for", "with", "about", "against", "between",
   "into", "through", "during", "before", "after", "above", "below", "to",
   "from", "up", "down", "in", "out", "on", "off", "over", "under", "again",
   "further", "then", "once", "here", "there", "when", "where", "why", "how",
   "all", "any", "both", "each", "few", "more", "most", "other", "some",
   "such", "no", "nor", "not", "only", "own", "same", "so", "than", "too",
   "very", "s", "t", "can", "will", "just", "don", "should", "now", "d",
   "ll", "m", "o", "re", "ve", "y", "ain", "aren", "couldn", "didn",
   "doesn", "hadn", "hasn", "haven", "isn", "ma", "mightn", "mustn",
   "needn", "shan", "shouldn", "wasn", "weren", "won", "wouldn"] ++
  ["you" ++ apoc ++ "re", "you" ++ apoc ++ "ve", "you" ++ apoc ++ "ll",
   "you" ++ apoc ++ "d", "she" ++ apoc ++ "s", "it" ++ apoc ++ "s",
   "that" ++ apoc ++ "ll", "don" ++ apoc ++ "t", "should" ++ apoc ++ "ve",
   "aren" ++ apoc ++ "t", "couldn" ++ apoc ++ "t", "didn" ++ apoc ++ "t",
   "doesn" ++ apoc ++ "t", "hadn" ++ apoc ++ "t", "hasn" ++ apoc ++ "t",
   "haven" ++ apoc ++ "t", "isn" ++ apoc ++ "t", "mightn" ++ apoc ++ "t",
   "mustn" ++ apoc ++ "t", "needn" ++ apoc ++ "t", "shan" ++ apoc ++ "t",
   "shouldn" ++ apoc ++ "t", "wasn" ++ apoc ++ "t", "weren" ++ apoc ++ "t",
   "won" ++ apoc ++ "t", "wouldn" ++ apoc ++ "t"]

/-- Stopword corpus as character lists, for the `List Char` pipeline. -/
def stopLists : List (List Char) := stopwordsEnglish.map String.data

/-- Stage 5, `remove_stopwords`: tokenize, drop the words whose lowercase form
is in the stopword set, and re-join with single spaces. -/
def removeStopwordsL (l : List Char) : List Char :=
  joinWords ((wordTokenizeL l).filter
    (fun w => !decide (w.map pyToLower ∈ stopLists)))

/-- Spelling dictionary interface of `pyspellchecker.SpellChecker`: membership
(`word in spell`) and best-candidate lookup (`spell.correction`, which returns
`None` when no candidate is found). -/
structure SpellDict where
  contains : String → Bool
  correction : String → Option String

/-- Per-token branch of `fix_spelling`:
`spell.correction(word) or word if word not in spell else word`.
The `or word` also covers a falsy (empty) correction. -/
def correctToken (spell : SpellDict) (w : List Char) : List Char :=
  if spell.contains ⟨w⟩ then w
  else
    match spell.correction ⟨w⟩ with
    | none => w
    | some c => if c.data = [] then w else c.data

/-- Stage 4, `fix_spelling`: tokenize, correct each token, re-join. -/
def fixSpellingL (spell : SpellDict) (l : List Char) : List Char :=
  joinWords ((wordTokenizeL l).map (correctToken spell))

/-- Model of Python `str.isalpha`: nonempty and all characters alphabetic
(exact on ASCII, where it means the letters `a`-`z` and `A`-`Z`). -/
def isAlphaPy (w : List Char) : Bool :=
  !w.isEmpty && w.all Char.isAlpha

/-- Token stream feeding the keyword counter in `extract_keywords`:
`[w.lower() for w in word_tokenize(text) if w.isalpha() and w.lower() not in stop_words]`. -/
def keywordTokens (l : List Char) : List (List Char) :=
  ((wordTokenizeL l).filter
    (fun w => isAlphaPy w && !decide (w.map pyToLower ∈ stopLists))).map
    (fun w => w.map pyToLower)

/-- Position of the first occurrence of `w` in the token corpus (length of the
corpus when absent); used to state the tie-break order of keywords. -/
def firstIdx : List (List Char) → List Char → ℕ
  | [], _ => 0
  | v :: vs, w => if v = w then 0 else firstIdx vs w + 1

/-- First occurrence of each distinct element, in corpus order; this is the
iteration order of the `collections.Counter` dictionary. -/
def firstSeen : List (List Char) → List (List Char)
  | [] => []
  | w :: ws => w :: (firstSeen ws).filter (fun v => decide (v ≠ w))

/-- Items of `collections.Counter(words)`: each distinct word in
first-encounter order, paired with its number of occurrences. -/
def counterItems (ws : List (List Char)) : List (List Char × ℕ) :=
  (firstSeen ws).map (fun w => (w, ws.count w))

/-- Model of `Counter.most_common(n)`: a stable sort of the counter items by
descending count, truncated to the first `n` items; `heapq.nlargest` returns
`[]` whenever `n <= 0`. -/
def mostCommon (n : ℤ) (items : List (List Char × ℕ)) : List (List Char × ℕ) :=
  if n ≤ 0 then []
  else (List.insertionSort (fun p q => q.2 ≤ p.2) items).take n.toNat

/-- Embedding of `extract_keywords` with the `KEYWORD_EXTRACTION_TOP_N`
environment value passed as the integer parameter `topN`. -/
def extractKeywords (topN : ℤ) (s : String) : List String :=
  (mostCommon topN (counterItems (keywordTokens s.data))).map
    (fun p => String.mk p.1)

/-- String-level `clean_text`. -/
def cleanText (s : String) : String := ⟨cleanTextL s.data⟩

/-- String-level `normalize_unicode`. -/
def normalizeUnicode (s : String) : String := ⟨normalizeUnicodeL s.data⟩

/-- String-level `remove_punctuation`. -/
def removePunctuation (s : String) : String := ⟨removePunctuationL s.data⟩

/-- String-level `fix_spelling`. -/
def fixSpelling (spell : SpellDict) (s : String) : String := ⟨fixSpellingL spell s.data⟩

/-- String-level `remove_stopwords`. -/
def removeStopwords (s : String) : String := ⟨removeStopwordsL s.data⟩

/-- Embedding of `process_single_chunk`: the five stages in their fixed order. -/
def processSingleChunk (spell : SpellDict) (chunk : String) : String :=
  removeStopwords (fixSpelling spell (removePunctuation (normalizeUnicode (cleanText chunk))))

/-- Composition of the four pure normalizer stages (`clean_text`,
`normalize_unicode`, `remove_punctuation`, `remove_stopwords`) in the fixed
order of `process_single_chunk`, without the spelling corrector. -/
def normalizePipeline (s : String) : String :=
  removeStopwords (removePunctuation (normalizeUnicode (cleanText s)))

/-- Document dictionary as consumed by the enrichment orchestrator: the
`document_id` and `chunks` keys are accessed unconditionally, the metadata
keys via `doc.get`, and `keywords` is written by `process_single_document`. -/
structure Doc where
  document_id : String
  chunks : List String
  source : Option String := none
  type : Option String := none
  title : Option String := none
  location : Option String := none
  created_at : Option String := none
  fetched_at : Option String := none
  language : Option String := none
  keywords : List String := []
deriving DecidableEq, Inhabited

/-- Chunk record dictionary assembled by `to_chunk_records`. -/
structure ChunkRecord where
  chunk_id : String
  chunk_index : ℕ
  chunk_text : String
  doc_id : String
  source : Option String
  type : Option String
  title : Option String
  location : Option String
  created_at : Option String
  fetched_at : Option String
  language : Option String
  keywords : List String
deriving DecidableEq, Inhabited

/-- Completion log of a bounded worker pool: the task for index `i` computes
`f i xs[i]`, and tasks finish in the order listed by `order` (indices outside
the task range complete nothing). -/
def poolLog (f : ℕ → α → β) (xs : List α) (order : List ℕ) : List (ℕ × β) :=
  order.filterMap (fun i => (xs[i]?).map (fun a => (i, f i a)))

/-- Reassembly of pool results by originating task index, the contract of
`concurrent.futures.Executor.map`: result `i` is the value logged for task
`i`, independent of completion order. -/
def poolGather (n : ℕ) (log : List (ℕ × β)) : List β :=
  (List.range n).filterMap (fun i => (log.find? (fun p => p.1 == i)).map Prod.snd)

/-- A bounded worker pool running one task per list element and correlating
results back by index. -/
def poolMapIdx (f : ℕ → α → β) (xs : List α) (order : List ℕ) : List β :=
  poolGather xs.length (poolLog f xs order)

/-- A completion order is valid for `n` tasks when every task eventually
completes. -/
def ValidOrder (n : ℕ) (order : List ℕ) : Prop :=
  ∀ i, i < n → i ∈ order

/-- Embedding of `process_single_document`: with no chunks the keyword list is
emptied and the document returned; otherwise the chunks are enriched on the
inner worker pool (completion order `innerOrder`) and `extract_keywords` runs
once over the `" "`-join of the enriched chunks. -/
def processSingleDocument (spell : SpellDict) (topN : ℤ) (innerOrder : List ℕ)
    (doc : Doc) : Doc :=
  if doc.chunks = [] then { doc with keywords := [] }
  else
    let enriched := poolMapIdx (fun _ c => processSingleChunk spell c) doc.chunks innerOrder
    { doc with
        chunks := enriched,
        keywords := extractKeywords topN (String.intercalate " " enriched) }

/-- Records of one document in `to_chunk_records`: one record per chunk with
`chunk_index = i` from `enumerate`, a fresh id from the uuid supply, the
parent metadata and the document's keyword list. -/
def recordsOfDoc (uuidGen : ℕ → String) (cnt : ℕ) (doc : Doc) : List ChunkRecord :=
  doc.chunks.enum.map (fun p =>
    { chunk_id := uuidGen (cnt + p.1)
      chunk_index := p.1
      chunk_text := p.2
      doc_id := doc.document_id
      source := doc.source
      type := doc.type
      title := doc.title
      location := doc.location
      created_at := doc.created_at
      fetched_at := doc.fetched_at
      language := doc.language
      keywords := doc.keywords })

/-- Recursion of `to_chunk_records` over the document list, threading the
count of records already emitted so that every `str(uuid4())` call draws a
fresh value from the supply `uuidGen`. -/
def toChunkRecordsAux (uuidGen : ℕ → String) : ℕ → List Doc → List ChunkRecord
  | _, [] => []
  | cnt, d :: ds =>
    recordsOfDoc uuidGen cnt d ++ toChunkRecordsAux uuidGen (cnt + d.chunks.length) ds

/-- Embedding of `to_chunk_records`. -/
def toChunkRecords (uuidGen : ℕ → String) (docs : List Doc) : List ChunkRecord :=
  toChunkRecordsAux uuidGen 0 docs

/-- Document-level fan-out of `enrich_chunks` followed by
`to_chunk_records`; `outerOrder` is the completion order of the process pool
and `innerOrders i` that of the thread pool inside document `i`'s worker. -/
def enrichChunksCore (spell : SpellDict) (topN : ℤ) (uuidGen : ℕ → String)
    (outerOrder : List ℕ) (innerOrders : ℕ → List ℕ) (docs : List Doc) : List ChunkRecord :=
  toChunkRecords uuidGen
    (poolMapIdx (fun i d => processSingleDocument spell topN (innerOrders i) d) docs outerOrder)

/-- Embedding of `enrich_chunks` including pool construction:
`max_workers = min(len(documents), multiprocessing.cpu_count())`, and
`ProcessPoolExecutor(max_workers=0)` raises
`ValueError("max_workers must be greater than 0")` before any task runs. -/
def enrichChunks (cpuCount : ℕ) (spell : SpellDict) (topN : ℤ) (uuidGen : ℕ → String)
    (outerOrder : List ℕ) (innerOrders : ℕ → List ℕ) (docs : List Doc) :
    Except String (List ChunkRecord) :=
  if min docs.length cpuCount ≤ 0 then
    Except.error "max_workers must be greater than 0"
  else
    Except.ok (enrichChunksCore spell topN uuidGen outerOrder innerOrders docs)

/-- Payload of a retrieved point as read by `build_prompt_context`; every key
is accessed with `payload.get`, so each field is optional. -/
structure Payload where
  chunk_text : Option String := none
  location : Option String := none
  source : Option String := none
  doc_id : Option String := none
  created_at : Option String := none
deriving DecidableEq, Inhabited

/-- Retrieved hit (`qdrant_client.models.ScoredPoint`): only `payload` is read
by the assembler, and the payload itself may be `None`. -/
structure ScoredPoint where
  score : Int := 0
  payload : Option Payload := none
deriving DecidableEq, Inhabited

/-- Python truthiness of `payload.get(key)`: the key must be present with a
nonempty string value. -/
def truthy : Option String → Bool
  | none => false
  | some s => !(s == "")

/-- Metadata parts accumulated by the four sequential `if` statements of
`build_prompt_context`, in source order. -/
def metaParts (p : Payload) : List String :=
  (if truthy p.location then ["Location: " ++ p.location.getD ""] else []) ++
    (if truthy p.source then ["Source: " ++ p.source.getD ""] else []) ++
      (if truthy p.doc_id then ["Document ID: " ++ p.doc_id.getD ""] else []) ++
        (if truthy p.created_at then ["Created At: " ++ p.created_at.getD ""] else [])

/-- Snippet built for one hit by `build_prompt_context`: with metadata
enabled, `(", ".join(meta) + "\n" if meta else "") + text`; otherwise
`text + "\n"`. -/
def snippetOf (includeMetadata : Bool) (hit : ScoredPoint) : String :=
  let text := match hit.payload with
    | none => ""
    | some p => p.chunk_text.getD ""
  if includeMetadata then
    let meta := match hit.payload with
      | none => []
      | some p => metaParts p
    (if meta ≠ [] then String.intercalate ", " meta ++ "\n" else "") ++ text
  else
    text ++ "\n"

/-- Accumulation loop of `build_prompt_context`: append each hit's snippet in
rank order, stopping at the first snippet that would push the context past
`maxChars`. -/
def buildContextAux (includeMetadata : Bool) (maxChars : ℤ) :
    List ScoredPoint → String → String
  | [], ctx => ctx
  | hit :: rest, ctx =>
    if ((ctx.length : ℤ) + ((snippetOf includeMetadata hit).length : ℤ)) > maxChars then ctx
    else buildContextAux includeMetadata maxChars rest (ctx ++ snippetOf includeMetadata hit)

/-- Context string assembled by `build_prompt_context` before template
rendering, with the `INCLUDE_METADATA` / `MAX_CONTEXT_CHARS` environment
values passed as parameters. -/
def buildPromptContext (includeMetadata : Bool) (maxChars : ℤ)
    (hits : List ScoredPoint) : String :=
  buildContextAux includeMetadata maxChars hits ""

/-- Concatenation of all snippets of the given hits in rank order. -/
def concatSnippets (includeMetadata : Bool) : List ScoredPoint → String
  | [] => ""
  | hit :: rest => snippetOf includeMetadata hit ++ concatSnippets includeMetadata rest

/-- Chunk text read from a hit's payload, `payload.get("chunk_text", "")`
with a missing payload contributing the empty string. -/
def hitText (hit : ScoredPoint) : String :=
  match hit.payload with
  | none => ""
  | some p => p.chunk_text.getD ""

/-- Metadata parts of a hit (empty when the payload is missing). -/
def hitMeta (hit : ScoredPoint) : List String :=
  match hit.payload with
  | none => []
  | some p => metaParts p

/-- Labelled optional metadata fields of a payload, in the order the assembler
inspects them. -/
def payloadFields (p : Payload) : List (String × Option String) :=
  [("Location: ", p.location), ("Source: ", p.source),
   ("Document ID: ", p.doc_id), ("Created At: ", p.created_at)]

/-- Best usable correction of a dictionary for a word: the `correction`
candidate when it is non-falsy (nonempty), and `none` otherwise. -/
def bestCorrection (spell : SpellDict) (w : String) : Option String :=
  (spell.correction w).bind (fun c => if c = "" then none else some c)

/-- Small concrete dictionary used to instantiate theorems: it contains only
`cd` and proposes `abc` for `ab`. -/
def demoDict : SpellDict :=
  ⟨fun w => w == "cd", fun w => if w == "ab" then some "abc" else none⟩

instance (n : ℕ) (order : List ℕ) : Decidable (ValidOrder n order) :=
  inferInstanceAs (Decidable (∀ i, i < n → i ∈ order))

/-- Snippet as described by the specification text (refinement reference,
deliberately written from the spec's words, not from the source): an optional
comma-joined metadata line built from the fields *present* on the payload,
then the chunk text, then a trailing newline after the text. -/
def specSnippet (includeMetadata : Bool) (hit : ScoredPoint) : String :=
  let text := match hit.payload with
    | none => ""
    | some p => p.chunk_text.getD ""
  let meta := match hit.payload with
    | none => []
    | some p =>
      (if p.location.isSome then ["Location: " ++ p.location.getD ""] else []) ++
        (if p.source.isSome then ["Source: " ++ p.source.getD ""] else []) ++
          (if p.doc_id.isSome then ["Document ID: " ++ p.doc_id.getD ""] else []) ++
            (if p.created_at.isSome then ["Created At: " ++ p.created_at.getD ""] else [])
  if includeMetadata ∧ meta ≠ [] then
    String.intercalate ", " meta ++ "\n" ++ text ++ "\n"
  else
    text ++ "\n"

/-- Canonical form of normalizer output: nonempty words whose characters are
non-whitespace, non-punctuation, ASCII and fixed by lower-casing, and whose
lowercase form is not a stopword. -/
def GoodWords (ws : List (List Char)) : Prop :=
  ∀ w ∈ ws, w ≠ [] ∧
    (∀ c ∈ w, isSpacePy c = false ∧ isPunctPy c = false ∧ c.toNat ≤ 127 ∧ pyToLower c = c) ∧
    w.map pyToLower ∉ stopLists

/-! ## Theorems -/

theorem string_data_eq_nil_iff (c : String) : c.data = [] ↔ c = "" :=
  ⟨fun h => String.ext h, fun h => by simp [h]⟩

/-- Claim C10: calling `enrich_chunks` on an empty document list raises
`ValueError` (the outer pool is sized `min(0, cpu_count()) = 0` and
`ProcessPoolExecutor` rejects `max_workers = 0`) rather than returning an
empty record list. -/
theorem c10_empty_batch_errors (cpuCount : ℕ) (spell : SpellDict) (topN : ℤ)
    (uuidGen : ℕ → String) (outerOrder : List ℕ) (innerOrders : ℕ → List ℕ) :
    enrichChunks cpuCount spell topN uuidGen outerOrder innerOrders [] =
      Except.error "max_workers must be greater than 0" := by
  simp [enrichChunks]

/-- Claim C9, counterexample: with metadata enabled, the snippet the code
builds for a hit with location `x` and text `abcd` is
`"Location: x\nabcd"` — the newline sits between the metadata line and the
text, and there is no trailing newline after the text, contradicting the
claimed shape (metadata line, text, trailing newline). -/
theorem c9_counterexample :
    snippetOf true { payload := some { chunk_text := some "abcd", location := some "x" } } ≠
      specSnippet true { payload := some { chunk_text := some "abcd", location := some "x" } } := by
  decide

/-- Claim C9 (amended): with metadata enabled the snippet is the comma-joined
metadata line — built from exactly those of `location`, `source`, `doc_id`,
`created_at` that are present with a truthy (nonempty) value, omitted entirely
when none is — followed by a newline, followed by the chunk text with no
trailing newline; with metadata disabled it is the text plus a trailing
newline; a hit with no chunk text contributes the metadata line only. -/
theorem c9_snippet_structure (hit : ScoredPoint) :
    snippetOf true hit =
      (if hitMeta hit ≠ [] then String.intercalate ", " (hitMeta hit) ++ "\n" else "") ++
        hitText hit ∧
    snippetOf false hit = hitText hit ++ "\n" ∧
    hitMeta hit = (match hit.payload with
      | none => []
      | some p =>
        ((payloadFields p).filter (fun q => truthy q.2)).map (fun q => q.1 ++ q.2.getD "")) ∧
    (hitText hit = "" → snippetOf true hit =
      (if hitMeta hit ≠ [] then String.intercalate ", " (hitMeta hit) ++ "\n" else "")) := by
  have hshape : snippetOf true hit =
      (if hitMeta hit ≠ [] then String.intercalate ", " (hitMeta hit) ++ "\n" else "") ++
        hitText hit := by
    cases hp : hit.payload <;> simp [snippetOf, hitMeta, hitText, hp]
  refine ⟨hshape, ?_, ?_, ?_⟩
  · cases hp : hit.payload <;> simp [snippetOf, hitText, hp]
  · cases hp : hit.payload with
    | none => simp [hitMeta, hp]
    | some p =>
      simp only [hitMeta, hp]
      unfold metaParts payloadFields
      cases h1 : truthy p.location <;> cases h2 : truthy p.source <;>
        cases h3 : truthy p.doc_id <;> cases h4 : truthy p.created_at <;>
          simp [List.filter, h1, h2, h3, h4]
  · intro ht
    rw [hshape, ht]
    simp

/-- Claim C9, witness: a hit carrying only a location metadata field and no
chunk text contributes exactly its metadata line. -/
theorem c9_snippet_structure_witness :
    hitText { payload := some { location := some "x" } } = "" ∧
    snippetOf true { payload := some { location := some "x" } } =
      (if hitMeta { payload := some { location := some "x" } } ≠ [] then
        String.intercalate ", " (hitMeta { payload := some { location := some "x" } }) ++ "\n"
      else "") :=
  ⟨by decide, (c9_snippet_structure _).2.2.2 (by decide)⟩

/-- Claim C5: `fix_spelling` joins exactly one output token per input token,
in order (no token is dropped): a token in the dictionary passes through
unchanged, and a token outside it is replaced by the dictionary's best
correction, or left unchanged when no (usable) correction exists. -/
theorem c5_spelling_preserves_tokens (spell : SpellDict) (text : String) :
    fixSpelling spell text =
      ⟨joinWords ((wordTokenizeL text.data).map (correctToken spell))⟩ ∧
    ((wordTokenizeL text.data).map (correctToken spell)).length =
      (wordTokenizeL text.data).length ∧
    ∀ i, i < (wordTokenizeL text.data).length →
      ((wordTokenizeL text.data).map (correctToken spell)).getD i [] =
        (if spell.contains ⟨(wordTokenizeL text.data).getD i []⟩ then
          (wordTokenizeL text.data).getD i []
        else
          ((bestCorrection spell ⟨(wordTokenizeL text.data).getD i []⟩).map
            String.data).getD ((wordTokenizeL text.data).getD i [])) := by
  refine ⟨rfl, List.length_map _ _, ?_⟩
  intro i hi
  have hmap : ((wordTokenizeL text.data).map (correctToken spell)).getD i [] =
      correctToken spell ((wordTokenizeL text.data).getD i []) := by
    rw [List.getD_eq_getElem _ _ (by simpa using hi), List.getD_eq_getElem _ _ hi,
      List.getElem_map]
  rw [hmap]
  generalize (wordTokenizeL text.data).getD i [] = w
  unfold correctToken bestCorrection
  cases hc : spell.contains ⟨w⟩
  · simp only [hc, Bool.false_eq_true, if_false]
    cases hr : spell.correction ⟨w⟩ with
    | none => simp
    | some c =>
      by_cases hce : c = ""
      · subst hce
        simp
      · have hcd : c.data ≠ [] := fun h => hce ((string_data_eq_nil_iff c).mp h)
        simp [hce, hcd]
  · simp [hc]

/-- Claim C5, witness: with the demo dictionary, the out-of-dictionary token
`ab` of `"ab cd"` is replaced by the proposed correction. -/
theorem c5_spelling_witness :
    ((wordTokenizeL ("ab cd" : String).data).map (correctToken demoDict)).getD 0 [] =
      (if demoDict.contains ⟨(wordTokenizeL ("ab cd" : String).data).getD 0 []⟩ then
        (wordTokenizeL ("ab cd" : String).data).getD 0 []
      else
        ((bestCorrection demoDict ⟨(wordTokenizeL ("ab cd" : String).data).getD 0 []⟩).map
          String.data).getD ((wordTokenizeL ("ab cd" : String).data).getD 0 [])) :=
  (c5_spelling_preserves_tokens demoDict "ab cd").2.2 0 (by decide)

theorem concatSnippets_append (b : Bool) (l₁ l₂ : List ScoredPoint) :
    concatSnippets b (l₁ ++ l₂) = concatSnippets b l₁ ++ concatSnippets b l₂ := by
  induction l₁ with
  | nil => simp [concatSnippets]
  | cons h t ih => simp [concatSnippets, ih, String.append_assoc]

theorem buildContextAux_take (b : Bool) (m : ℤ) :
    ∀ (hits : List ScoredPoint) (ctx : String),
      ∃ k, k ≤ hits.length ∧
        buildContextAux b m hits ctx = ctx ++ concatSnippets b (hits.take k) ∧
        (k = hits.length ∨
          ((buildContextAux b m hits ctx).length : ℤ) +
            ((snippetOf b (hits.getD k default)).length : ℤ) > m) := by
  intro hits
  induction hits with
  | nil =>
    intro ctx
    refine ⟨0, Nat.le_refl _, ?_, Or.inl rfl⟩
    simp [buildContextAux, concatSnippets]
  | cons hit rest ih =>
    intro ctx
    by_cases hc : ((ctx.length : ℤ) + ((snippetOf b hit).length : ℤ)) > m
    · refine ⟨0, Nat.zero_le _, ?_, Or.inr ?_⟩
      · simp [buildContextAux, hc, concatSnippets]
      · simp only [buildContextAux, if_pos hc, List.getD_cons_zero]
        exact hc
    · obtain ⟨k, hk, heq, hstop⟩ := ih (ctx ++ snippetOf b hit)
      refine ⟨k + 1, Nat.succ_le_succ hk, ?_, ?_⟩
      · rw [show buildContextAux b m (hit :: rest) ctx =
            buildContextAux b m rest (ctx ++ snippetOf b hit) from by
          simp [buildContextAux, hc], heq, List.take_succ_cons]
        simp [concatSnippets, String.append_assoc]
      · rcases hstop with h | h
        · exact Or.inl (by simp [h])
        · refine Or.inr ?_
          simpa [buildContextAux, hc] using h

theorem buildContextAux_length_le (b : Bool) (m : ℤ) :
    ∀ (hits : List ScoredPoint) (ctx : String), (ctx.length : ℤ) ≤ m →
      ((buildContextAux b m hits ctx).length : ℤ) ≤ m := by
  intro hits
  induction hits with
  | nil => intro ctx h; simpa [buildContextAux] using h
  | cons hit rest ih =>
    intro ctx h
    by_cases hc : ((ctx.length : ℤ) + ((snippetOf b hit).length : ℤ)) > m
    · simpa [buildContextAux, hc] using h
    · have hnext : (((ctx ++ snippetOf b hit).length : ℕ) : ℤ) ≤ m := by
        rw [String.length_append]; push_cast; omega
      simpa [buildContextAux, hc] using ih (ctx ++ snippetOf b hit) hnext

/-- Claim C1 (amended: for a nonnegative `MAX_CONTEXT_CHARS` budget): the
assembled context fits the budget, is a prefix of the concatenation of all
snippets in rank order, and equals the concatenation of the snippets of the
first `k` hits, where either all hits were packed or the loop stopped at the
first hit whose snippet would overflow the budget, dropping it and every
later hit. -/
theorem c1_budget_prefix_greedy (b : Bool) (m : ℤ) (hits : List ScoredPoint)
    (hm : 0 ≤ m) :
    ((buildPromptContext b m hits).length : ℤ) ≤ m ∧
    (∃ rest, buildPromptContext b m hits ++ rest = concatSnippets b hits) ∧
    ∃ k, k ≤ hits.length ∧
      buildPromptContext b m hits = concatSnippets b (hits.take k) ∧
      (k = hits.length ∨
        ((buildPromptContext b m hits).length : ℤ) +
          ((snippetOf b (hits.getD k default)).length : ℤ) > m) := by
  obtain ⟨k, hk, heq, hstop⟩ := buildContextAux_take b m hits ""
  have hlen := buildContextAux_length_le b m hits "" (by simpa using hm)
  have hctx : buildPromptContext b m hits = concatSnippets b (hits.take k) := by
    rw [buildPromptContext, heq]; simp
  refine ⟨hlen, ⟨concatSnippets b (hits.drop k), ?_⟩, ⟨k, hk, hctx, hstop⟩⟩
  rw [hctx, ← concatSnippets_append, List.take_append_drop]

/-- Claim C1, counterexample: with a negative `MAX_CONTEXT_CHARS` (which
`int(...)` admits) the assembled context is the empty string, whose length 0
already exceeds the budget, so `len(context) <= max_context_chars` does not
hold for every `max_context_chars` value. -/
theorem c1_counterexample :
    ¬ (((buildPromptContext true (-1) []).length : ℤ) ≤ -1) := by decide

/-- Claim C1, witness: a concrete instance of the amended theorem with budget
5 and a single 5-character snippet. -/
theorem c1_budget_prefix_greedy_witness :
    ((buildPromptContext false 5 [{ payload := some { chunk_text := some "abcd" } }]).length : ℤ) ≤ 5 ∧
    (∃ rest, buildPromptContext false 5 [{ payload := some { chunk_text := some "abcd" } }] ++ rest =
      concatSnippets false [{ payload := some { chunk_text := some "abcd" } }]) ∧
    ∃ k, k ≤ [({ payload := some { chunk_text := some "abcd" } } : ScoredPoint)].length ∧
      buildPromptContext false 5 [{ payload := some { chunk_text := some "abcd" } }] =
        concatSnippets false ([{ payload := some { chunk_text := some "abcd" } }].take k) ∧
      (k = [({ payload := some { chunk_text := some "abcd" } } : ScoredPoint)].length ∨
        ((buildPromptContext false 5 [{ payload := some { chunk_text := some "abcd" } }]).length : ℤ) +
          ((snippetOf false ([({ payload := some { chunk_text := some "abcd" } } : ScoredPoint)].getD k default)).length : ℤ) > 5) :=
  c1_budget_prefix_greedy false 5 [{ payload := some { chunk_text := some "abcd" } }] (by decide)

/-! ### Worker-pool reassembly and enrichment ordering -/

theorem poolLog_cons (f : ℕ → α → β) (xs : List α) (j : ℕ) (rest : List ℕ) :
    poolLog f xs (j :: rest) =
      (match xs[j]? with
       | none => poolLog f xs rest
       | some a => (j, f j a) :: poolLog f xs rest) := by
  cases hxj : xs[j]? <;> simp [poolLog, List.filterMap_cons, hxj]

theorem poolLog_find? (f : ℕ → α → β) (xs : List α) :
    ∀ (order : List ℕ) (i : ℕ) (a : α), xs[i]? = some a → i ∈ order →
      (poolLog f xs order).find? (fun p => p.1 == i) = some (i, f i a) := by
  intro order
  induction order with
  | nil => intro i a _ hmem; simp at hmem
  | cons j rest ih =>
    intro i a ha hmem
    rw [poolLog_cons]
    by_cases hj : j = i
    · subst hj
      rw [ha]
      exact List.find?_cons_of_pos _ (by simp)
    · have hmem' : i ∈ rest := by
        rcases List.mem_cons.mp hmem with h | h
        · exact absurd h.symm hj
        · exact h
      cases hxj : xs[j]? with
      | none => exact ih i a ha hmem'
      | some bval =>
        rw [List.find?_cons_of_neg _ (by simpa using hj)]
        exact ih i a ha hmem'

theorem filterMap_range_eq_map {β : Type*} (n : ℕ) (g : ℕ → Option β) (v : ℕ → β)
    (h : ∀ i, i < n → g i = some (v i)) :
    (List.range n).filterMap g = (List.range n).map v := by
  induction n with
  | zero => simp
  | succ n ih =>
    rw [List.range_succ, List.filterMap_append, List.map_append,
      ih (fun i hi => h i (Nat.lt_succ_of_lt hi))]
    simp [h n (Nat.lt_succ_self n)]

theorem poolMapIdx_eq [Inhabited α] (f : ℕ → α → β) (xs : List α) (order : List ℕ)
    (h : ValidOrder xs.length order) :
    poolMapIdx f xs order = xs.enum.map (fun p => f p.1 p.2) := by
  unfold poolMapIdx poolGather
  rw [filterMap_range_eq_map xs.length
    (fun i => Option.map Prod.snd ((poolLog f xs order).find? (fun p => p.1 == i)))
    (fun i => f i (xs.getD i default))
    (fun i hi => by
      have hx : xs[i]? = some xs[i] := List.getElem?_eq_getElem hi
      dsimp only
      rw [poolLog_find? f xs order i _ hx (h i hi)]
      simp [List.getD, hx])]
  apply List.ext_getElem
  · simp [List.enum_length]
  · intro i h1 h2
    have hi : i < xs.length := by simpa using h1
    have hx : xs[i]? = some xs[i] := List.getElem?_eq_getElem hi
    simp [List.getElem_map, List.getElem_range, List.getElem_enum, List.getD, hx]

theorem processSingleDocument_chunks (spell : SpellDict) (topN : ℤ)
    (innerOrder : List ℕ) (doc : Doc)
    (h : ValidOrder doc.chunks.length innerOrder) :
    (processSingleDocument spell topN innerOrder doc).chunks =
      doc.chunks.map (processSingleChunk spell) := by
  unfold processSingleDocument
  by_cases hc : doc.chunks = []
  · simp [hc]
  · simp only [hc, if_false]
    rw [poolMapIdx_eq _ _ _ h]
    calc doc.chunks.enum.map (fun p => processSingleChunk spell p.2)
        = (doc.chunks.enum.map Prod.snd).map (processSingleChunk spell) := by
          rw [List.map_map]; rfl
      _ = doc.chunks.map (processSingleChunk spell) := by rw [List.enum_map_snd]

theorem processSingleDocument_keywords (spell : SpellDict) (topN : ℤ)
    (innerOrder : List ℕ) (doc : Doc)
    (h : ValidOrder doc.chunks.length innerOrder) (hne : doc.chunks ≠ []) :
    (processSingleDocument spell topN innerOrder doc).keywords =
      extractKeywords topN
        (String.intercalate " " (doc.chunks.map (processSingleChunk spell))) := by
  unfold processSingleDocument
  simp only [hne, if_false]
  rw [poolMapIdx_eq _ _ _ h]
  have hmap : doc.chunks.enum.map (fun p => processSingleChunk spell p.2) =
      doc.chunks.map (processSingleChunk spell) := by
    calc doc.chunks.enum.map (fun p => processSingleChunk spell p.2)
        = (doc.chunks.enum.map Prod.snd).map (processSingleChunk spell) := by
          rw [List.map_map]; rfl
      _ = doc.chunks.map (processSingleChunk spell) := by rw [List.enum_map_snd]
  rw [hmap]

theorem processSingleDocument_document_id (spell : SpellDict) (topN : ℤ)
    (innerOrder : List ℕ) (doc : Doc) :
    (processSingleDocument spell topN innerOrder doc).document_id = doc.document_id := by
  unfold processSingleDocument
  by_cases hc : doc.chunks = [] <;> simp [hc]

theorem processSingleDocument_chunks_ne (spell : SpellDict) (topN : ℤ)
    (innerOrder : List ℕ) (doc : Doc)
    (h : (processSingleDocument spell topN innerOrder doc).chunks ≠ []) :
    doc.chunks ≠ [] := by
  intro hc
  apply h
  unfold processSingleDocument
  simp [hc]

theorem recordsOfDoc_length (u : ℕ → String) (cnt : ℕ) (d : Doc) :
    (recordsOfDoc u cnt d).length = d.chunks.length := by
  simp [recordsOfDoc, List.enum_length]

theorem recordsOfDoc_chunk_index (u : ℕ → String) (cnt : ℕ) (d : Doc) :
    (recordsOfDoc u cnt d).map (fun r => r.chunk_index) = List.range d.chunks.length := by
  unfold recordsOfDoc
  rw [List.map_map]
  exact List.enum_map_fst d.chunks

theorem recordsOfDoc_fields (u : ℕ → String) (cnt : ℕ) (d : Doc) (r : ChunkRecord)
    (h : r ∈ recordsOfDoc u cnt d) :
    r.doc_id = d.document_id ∧ r.keywords = d.keywords := by
  obtain ⟨p, _, hr⟩ := List.mem_map.mp h
  rw [← hr]
  exact ⟨rfl, rfl⟩

theorem recordsOfDoc_nonempty_chunks (u : ℕ → String) (cnt : ℕ) (d : Doc)
    (r : ChunkRecord) (h : r ∈ recordsOfDoc u cnt d) : d.chunks ≠ [] := by
  intro hc
  rw [recordsOfDoc, hc] at h
  simp at h

theorem toChunkRecordsAux_decomp (u : ℕ → String) :
    ∀ (ds : List Doc) (cnt j : ℕ), j < ds.length →
      ∃ pre post, toChunkRecordsAux u cnt ds =
        pre ++ recordsOfDoc u (cnt + pre.length) (ds.getD j default) ++ post := by
  intro ds
  induction ds with
  | nil => intro cnt j hj; simp at hj
  | cons d rest ih =>
    intro cnt j hj
    cases j with
    | zero =>
      exact ⟨[], toChunkRecordsAux u (cnt + d.chunks.length) rest, by
        simp [toChunkRecordsAux]⟩
    | succ j' =>
      obtain ⟨pre, post, hp⟩ := ih (cnt + d.chunks.length) j' (by simpa using hj)
      refine ⟨recordsOfDoc u cnt d ++ pre, post, ?_⟩
      rw [toChunkRecordsAux, hp]
      have hlen : (recordsOfDoc u cnt d ++ pre).length = d.chunks.length + pre.length := by
        simp [recordsOfDoc_length]
      rw [hlen]
      simp [List.append_assoc, Nat.add_assoc]

theorem mem_toChunkRecordsAux (u : ℕ → String) :
    ∀ (ds : List Doc) (cnt : ℕ) (r : ChunkRecord), r ∈ toChunkRecordsAux u cnt ds →
      ∃ j, j < ds.length ∧ r.doc_id = (ds.getD j default).document_id ∧
        r.keywords = (ds.getD j default).keywords ∧ (ds.getD j default).chunks ≠ [] := by
  intro ds
  induction ds with
  | nil => intro cnt r h; simp [toChunkRecordsAux] at h
  | cons d rest ih =>
    intro cnt r h
    rw [toChunkRecordsAux] at h
    rcases List.mem_append.mp h with h1 | h2
    · refine ⟨0, Nat.succ_pos _, ?_, ?_, ?_⟩
      · simpa using (recordsOfDoc_fields u cnt d r h1).1
      · simpa using (recordsOfDoc_fields u cnt d r h1).2
      · simpa using recordsOfDoc_nonempty_chunks u cnt d r h1
    · obtain ⟨j, hj, h3, h4, h5⟩ := ih _ r h2
      exact ⟨j + 1, by simpa using Nat.succ_lt_succ hj, by simpa using h3,
        by simpa using h4, by simpa using h5⟩

theorem enriched_getD (spell : SpellDict) (topN : ℤ) (innerOrders : ℕ → List ℕ)
    (docs : List Doc) (j : ℕ) (hj : j < docs.length) :
    (docs.enum.map (fun p => processSingleDocument spell topN (innerOrders p.1) p.2)).getD j
        default =
      processSingleDocument spell topN (innerOrders j) (docs.getD j default) := by
  rw [List.getD_eq_getElem _ _ (by simpa [List.enum_length] using hj),
    List.getElem_map, List.getElem_enum, List.getD_eq_getElem docs default hj]

/-- Claim C2: for every document of the batch, whatever the completion orders
of the outer (document-level) and inner (chunk-level) pools, the output of
`enrich_chunks` contains that document's records contiguously, with
`chunk_index` values `0, 1, ..., k-1` (`k` the document's chunk count), dense,
zero-based and in exactly that order, all carrying the parent document id. -/
theorem c2_chunk_index_order (spell : SpellDict) (topN : ℤ) (uuidGen : ℕ → String)
    (outerOrder : List ℕ) (innerOrders : ℕ → List ℕ) (docs : List Doc)
    (houter : ValidOrder docs.length outerOrder)
    (hinner : ∀ i, i < docs.length →
      ValidOrder (docs.getD i default).chunks.length (innerOrders i))
    (j : ℕ) (hj : j < docs.length) :
    ∃ pre post,
      enrichChunksCore spell topN uuidGen outerOrder innerOrders docs =
        pre ++ recordsOfDoc uuidGen pre.length
          (processSingleDocument spell topN (innerOrders j) (docs.getD j default)) ++ post ∧
      (recordsOfDoc uuidGen pre.length
        (processSingleDocument spell topN (innerOrders j) (docs.getD j default))).map
          (fun r => r.chunk_index) = List.range (docs.getD j default).chunks.length ∧
      ∀ r ∈ recordsOfDoc uuidGen pre.length
          (processSingleDocument spell topN (innerOrders j) (docs.getD j default)),
        r.doc_id = (docs.getD j default).document_id := by
  have hpool := poolMapIdx_eq
    (fun i d => processSingleDocument spell topN (innerOrders i) d) docs outerOrder houter
  have hlenE :
      (docs.enum.map (fun p => processSingleDocument spell topN (innerOrders p.1) p.2)).length =
        docs.length := by
    simp [List.enum_length]
  obtain ⟨pre, post, hdecomp⟩ := toChunkRecordsAux_decomp uuidGen
    (docs.enum.map (fun p => processSingleDocument spell topN (innerOrders p.1) p.2)) 0 j
    (by rw [hlenE]; exact hj)
  rw [enriched_getD spell topN innerOrders docs j hj] at hdecomp
  refine ⟨pre, post, ?_, ?_, ?_⟩
  · rw [enrichChunksCore, toChunkRecords, hpool]
    simpa using hdecomp
  · rw [recordsOfDoc_chunk_index,
      processSingleDocument_chunks spell topN (innerOrders j) _ (hinner j hj),
      List.length_map]
  · intro r hr
    rw [(recordsOfDoc_fields _ _ _ r hr).1,
      processSingleDocument_document_id]

/-- Claim C2, witness: a single two-chunk document processed with concrete
pool completion orders. -/
theorem c2_chunk_index_order_witness :
    ∃ pre post,
      enrichChunksCore demoDict 1 (fun _ => "") [0] (fun _ => [1, 0])
          [{ document_id := "d1", chunks := ["aa bb", "cc"] }] =
        pre ++ recordsOfDoc (fun _ => "") pre.length
          (processSingleDocument demoDict 1 [1, 0]
            (([{ document_id := "d1", chunks := ["aa bb", "cc"] }] :
              List Doc).getD 0 default)) ++ post ∧
      (recordsOfDoc (fun _ => "") pre.length
        (processSingleDocument demoDict 1 [1, 0]
          (([{ document_id := "d1", chunks := ["aa bb", "cc"] }] :
            List Doc).getD 0 default))).map (fun r => r.chunk_index) =
        List.range (([{ document_id := "d1", chunks := ["aa bb", "cc"] }] :
          List Doc).getD 0 default).chunks.length ∧
      ∀ r ∈ recordsOfDoc (fun _ => "") pre.length
          (processSingleDocument demoDict 1 [1, 0]
            (([{ document_id := "d1", chunks := ["aa bb", "cc"] }] :
              List Doc).getD 0 default)),
        r.doc_id = (([{ document_id := "d1", chunks := ["aa bb", "cc"] }] :
          List Doc).getD 0 default).document_id :=
  c2_chunk_index_order demoDict 1 (fun _ => "") [0] (fun _ => [1, 0])
    [{ document_id := "d1", chunks := ["aa bb", "cc"] }]
    (by decide) (by decide) 0 (by decide)

/-- Claim C4, counterexample: two distinct input documents that happen to
share the `document_id` value `d` produce records sharing a `doc_id` but
carrying different keyword lists, so the claim as stated (over every record
pair sharing a `doc_id`) fails. -/
theorem c4_counterexample :
    ¬ (∀ r ∈ enrichChunksCore ⟨fun _ => true, fun _ => none⟩ 1 (fun _ => "")
          [0, 1] (fun _ => [0])
          [{ document_id := "d", chunks := ["apple apple"] },
           { document_id := "d", chunks := ["banana banana"] }],
        ∀ r' ∈ enrichChunksCore ⟨fun _ => true, fun _ => none⟩ 1 (fun _ => "")
          [0, 1] (fun _ => [0])
          [{ document_id := "d", chunks := ["apple apple"] },
           { document_id := "d", chunks := ["banana banana"] }],
        r.doc_id = r'.doc_id → r.keywords = r'.keywords) := by
  decide

/-- Claim C4 (amended: for batches whose `document_id`s are pairwise
distinct): every record's keyword list is exactly `extract_keywords` of the
`" "`-concatenation of its own document's enriched chunks — computed once per
document and copied into each record — and hence any two records sharing a
`doc_id` carry an identical keyword list. -/
theorem c4_keywords_per_document (spell : SpellDict) (topN : ℤ) (uuidGen : ℕ → String)
    (outerOrder : List ℕ) (innerOrders : ℕ → List ℕ) (docs : List Doc)
    (houter : ValidOrder docs.length outerOrder)
    (hinner : ∀ i, i < docs.length →
      ValidOrder (docs.getD i default).chunks.length (innerOrders i))
    (hids : (docs.map Doc.document_id).Nodup) :
    (∀ r ∈ enrichChunksCore spell topN uuidGen outerOrder innerOrders docs,
      ∃ j, j < docs.length ∧ r.doc_id = (docs.getD j default).document_id ∧
        r.keywords = extractKeywords topN (String.intercalate " "
          ((docs.getD j default).chunks.map (processSingleChunk spell)))) ∧
    (∀ r ∈ enrichChunksCore spell topN uuidGen outerOrder innerOrders docs,
      ∀ r' ∈ enrichChunksCore spell topN uuidGen outerOrder innerOrders docs,
        r.doc_id = r'.doc_id → r.keywords = r'.keywords) := by
  have hpool := poolMapIdx_eq
    (fun i d => processSingleDocument spell topN (innerOrders i) d) docs outerOrder houter
  have hmain : ∀ r ∈ enrichChunksCore spell topN uuidGen outerOrder innerOrders docs,
      ∃ j, j < docs.length ∧ r.doc_id = (docs.getD j default).document_id ∧
        r.keywords = extractKeywords topN (String.intercalate " "
          ((docs.getD j default).chunks.map (processSingleChunk spell))) := by
    intro r hr
    rw [enrichChunksCore, toChunkRecords, hpool] at hr
    obtain ⟨j, hj, hid, hkw, hne⟩ := mem_toChunkRecordsAux uuidGen _ 0 r hr
    have hj' : j < docs.length := by simpa [List.enum_length] using hj
    rw [enriched_getD spell topN innerOrders docs j hj'] at hid hkw hne
    refine ⟨j, hj', ?_, ?_⟩
    · rw [hid, processSingleDocument_document_id]
    · rw [hkw, processSingleDocument_keywords spell topN (innerOrders j) _
        (hinner j hj') (processSingleDocument_chunks_ne spell topN (innerOrders j) _ hne)]
  refine ⟨hmain, ?_⟩
  intro r hr r' hr' hdid
  obtain ⟨j, hj, hid, hkw⟩ := hmain r hr
  obtain ⟨j', hj', hid', hkw'⟩ := hmain r' hr'
  have hjj : j = j' := by
    have h1 : (docs.map Doc.document_id).get ⟨j, by simpa using hj⟩ =
        (docs.map Doc.document_id).get ⟨j', by simpa using hj'⟩ := by
      simp only [List.get_eq_getElem, List.getElem_map]
      rw [← List.getD_eq_getElem docs default hj, ← List.getD_eq_getElem docs default hj']
      rw [← hid, ← hid', hdid]
    simpa using List.nodup_iff_injective_get.mp hids h1
  rw [hkw, hkw', hjj]

/-- Claim C4, witness: the amended theorem at a concrete two-document batch
with distinct ids. -/
theorem c4_keywords_per_document_witness :
    (∀ r ∈ enrichChunksCore ⟨fun _ => true, fun _ => none⟩ 1 (fun _ => "")
        [1, 0] (fun _ => [0])
        [{ document_id := "d1", chunks := ["apple apple"] },
         { document_id := "d2", chunks := ["banana banana"] }],
      ∃ j, j < ([{ document_id := "d1", chunks := ["apple apple"] },
         { document_id := "d2", chunks := ["banana banana"] }] : List Doc).length ∧
        r.doc_id = (([{ document_id := "d1", chunks := ["apple apple"] },
          { document_id := "d2", chunks := ["banana banana"] }] :
            List Doc).getD j default).document_id ∧
        r.keywords = extractKeywords 1 (String.intercalate " "
          ((([{ document_id := "d1", chunks := ["apple apple"] },
            { document_id := "d2", chunks := ["banana banana"] }] :
              List Doc).getD j default).chunks.map
            (processSingleChunk ⟨fun _ => true, fun _ => none⟩)))) ∧
    (∀ r ∈ enrichChunksCore ⟨fun _ => true, fun _ => none⟩ 1 (fun _ => "")
        [1, 0] (fun _ => [0])
        [{ document_id := "d1", chunks := ["apple apple"] },
         { document_id := "d2", chunks := ["banana banana"] }],
      ∀ r' ∈ enrichChunksCore ⟨fun _ => true, fun _ => none⟩ 1 (fun _ => "")
          [1, 0] (fun _ => [0])
          [{ document_id := "d1", chunks := ["apple apple"] },
           { document_id := "d2", chunks := ["banana banana"] }],
        r.doc_id = r'.doc_id → r.keywords = r'.keywords) :=
  c4_keywords_per_document ⟨fun _ => true, fun _ => none⟩ 1 (fun _ => "")
    [1, 0] (fun _ => [0])
    [{ document_id := "d1", chunks := ["apple apple"] },
     { document_id := "d2", chunks := ["banana banana"] }]
    (by decide) (by decide) (by decide)

/-! ### Keyword extraction: frequency order with first-seen tie-break -/

theorem mem_firstSeen (ws : List (List Char)) (a : List Char) :
    a ∈ firstSeen ws ↔ a ∈ ws := by
  induction ws with
  | nil => simp [firstSeen]
  | cons w t ih =>
    by_cases haw : a = w
    · subst haw
      simp [firstSeen]
    · simp [firstSeen, List.mem_filter, ih, haw]

theorem firstIdx_cons_self (w : List Char) (t : List (List Char)) :
    firstIdx (w :: t) w = 0 := by
  simp [firstIdx]

theorem firstIdx_cons_ne (w b : List Char) (t : List (List Char)) (h : b ≠ w) :
    firstIdx (w :: t) b = firstIdx t b + 1 := by
  have hwb : w ≠ b := Ne.symm h
  simp [firstIdx, hwb]

theorem firstSeen_pairwise_firstIdx (ws : List (List Char)) :
    (firstSeen ws).Pairwise (fun a b => firstIdx ws a < firstIdx ws b) := by
  induction ws with
  | nil => simp [firstSeen]
  | cons w t ih =>
    rw [firstSeen]
    refine List.pairwise_cons.mpr ⟨?_, ?_⟩
    · intro b hb
      have hbne : b ≠ w := by simpa using (List.mem_filter.mp hb).2
      rw [firstIdx_cons_self, firstIdx_cons_ne w b t hbne]
      exact Nat.succ_pos _
    · refine (ih.filter _).imp_of_mem ?_
      intro a b ha hb hab
      have hane : a ≠ w := by simpa using (List.mem_filter.mp ha).2
      have hbne : b ≠ w := by simpa using (List.mem_filter.mp hb).2
      rw [firstIdx_cons_ne w a t hane, firstIdx_cons_ne w b t hbne]
      exact Nat.succ_lt_succ hab

theorem counterItems_pairwise (ws : List (List Char)) :
    (counterItems ws).Pairwise (fun p q => firstIdx ws p.1 < firstIdx ws q.1) := by
  unfold counterItems
  exact List.pairwise_map.mpr (firstSeen_pairwise_firstIdx ws)

theorem counterItems_snd (ws : List (List Char)) (p : List Char × ℕ)
    (h : p ∈ counterItems ws) : p.2 = ws.count p.1 := by
  obtain ⟨w, _, hw⟩ := List.mem_map.mp h
  rw [← hw]

theorem orderedInsert_pairwise_key {α : Type*} (key : α → ℕ) (S : α → α → Prop)
    (a : α) (t : List α)
    (ht : t.Pairwise (fun p q => key q < key p ∨ (key p = key q ∧ S p q)))
    (ha : ∀ b ∈ t, S a b) :
    (List.orderedInsert (fun p q => key q ≤ key p) a t).Pairwise
      (fun p q => key q < key p ∨ (key p = key q ∧ S p q)) := by
  induction t with
  | nil => simp
  | cons b t' ih =>
    show (if key b ≤ key a then a :: b :: t'
      else b :: List.orderedInsert (fun p q => key q ≤ key p) a t').Pairwise _
    by_cases hr : key b ≤ key a
    · rw [if_pos hr]
      refine List.pairwise_cons.mpr ⟨?_, ht⟩
      intro x hx
      have hxb : key x ≤ key b := by
        rcases List.mem_cons.mp hx with rfl | hx'
        · exact Nat.le_refl _
        · rcases (List.pairwise_cons.mp ht).1 x hx' with h | h
          · exact Nat.le_of_lt h
          · exact Nat.le_of_eq h.1.symm
      rcases Nat.lt_or_ge (key x) (key a) with hlt | hge
      · exact Or.inl hlt
      · exact Or.inr ⟨Nat.le_antisymm hge (Nat.le_trans hxb hr), ha x hx⟩
    · rw [if_neg hr]
      refine List.pairwise_cons.mpr ⟨?_, ih (List.pairwise_cons.mp ht).2
        (fun x hx => ha x (List.mem_cons_of_mem _ hx))⟩
      intro x hx
      rcases (List.mem_orderedInsert _).mp hx with rfl | hx'
      · exact Or.inl (Nat.lt_of_not_le hr)
      · exact (List.pairwise_cons.mp ht).1 x hx'

theorem insertionSort_pairwise_key {α : Type*} (key : α → ℕ) (S : α → α → Prop)
    (l : List α) (hl : l.Pairwise S) :
    (List.insertionSort (fun p q => key q ≤ key p) l).Pairwise
      (fun p q => key q < key p ∨ (key p = key q ∧ S p q)) := by
  induction l with
  | nil => simp
  | cons a t ih =>
    show (List.orderedInsert (fun p q => key q ≤ key p) a
      (List.insertionSort (fun p q => key q ≤ key p) t)).Pairwise _
    exact orderedInsert_pairwise_key key S a _
      (ih (List.pairwise_cons.mp hl).2)
      (fun b hb => (List.pairwise_cons.mp hl).1 b ((List.mem_insertionSort _).mp hb))

/-- Claim C3: keyword extraction returns at most `top_n` words, ordered by
strictly descending corpus frequency with frequency ties broken by first
occurrence in the token corpus; `top_n <= 0` yields `[]` (total, no failure);
and on `"cat cat dog"` with `top_n = 2` it returns exactly
`["cat", "dog"]`. -/
theorem c3_keyword_extraction (topN : ℤ) (s : String) :
    (extractKeywords topN s).length ≤ topN.toNat ∧
    (topN ≤ 0 → extractKeywords topN s = []) ∧
    (extractKeywords topN s).Pairwise (fun a b =>
      (keywordTokens s.data).count b.data < (keywordTokens s.data).count a.data ∨
      ((keywordTokens s.data).count a.data = (keywordTokens s.data).count b.data ∧
        firstIdx (keywordTokens s.data) a.data < firstIdx (keywordTokens s.data) b.data)) ∧
    extractKeywords 2 "cat cat dog" = ["cat", "dog"] := by
  refine ⟨?_, ?_, ?_, by decide⟩
  · unfold extractKeywords mostCommon
    by_cases h : topN ≤ 0
    · simp [h]
    · simp only [h, if_false, List.length_map]
      exact List.length_take_le _ _
  · intro h
    unfold extractKeywords mostCommon
    simp [h]
  · unfold extractKeywords
    rw [List.pairwise_map]
    unfold mostCommon
    by_cases h : topN ≤ 0
    · simp [h]
    · simp only [h, if_false]
      have hsorted := insertionSort_pairwise_key (fun p => p.2)
        (fun p q => firstIdx (keywordTokens s.data) p.1 < firstIdx (keywordTokens s.data) q.1)
        (counterItems (keywordTokens s.data)) (counterItems_pairwise (keywordTokens s.data))
      have htake := List.Pairwise.sublist (List.take_sublist topN.toNat _) hsorted
      refine htake.imp_of_mem ?_
      intro p q hp hq hT
      have hpmem : p ∈ counterItems (keywordTokens s.data) :=
        (List.mem_insertionSort _).mp ((List.take_sublist _ _).subset hp)
      have hqmem : q ∈ counterItems (keywordTokens s.data) :=
        (List.mem_insertionSort _).mp ((List.take_sublist _ _).subset hq)
      have hpc := counterItems_snd _ p hpmem
      have hqc := counterItems_snd _ q hqmem
      rcases hT with hlt | ⟨heq, hS⟩
      · refine Or.inl ?_
        show (keywordTokens s.data).count q.1 < (keywordTokens s.data).count p.1
        rw [← hpc, ← hqc]
        exact hlt
      · refine Or.inr ⟨?_, ?_⟩
        · show (keywordTokens s.data).count p.1 = (keywordTokens s.data).count q.1
          rw [← hpc, ← hqc]
          exact heq
        · exact hS

/-- Claim C3, witness: a nonpositive `top_n` yields the empty keyword list. -/
theorem c3_keyword_extraction_witness : extractKeywords (-1) "cat cat" = [] :=
  (c3_keyword_extraction (-1) "cat cat").2.1 (by decide)

/-! ### Normalizer idempotence on ASCII text -/

theorem char_toNat_ofNat (n : ℕ) (h : n < 55296) : (Char.ofNat n).toNat = n := by
  have hv : n.isValidChar := Or.inl h
  simp [Char.ofNat, hv, Char.ofNatAux, Char.toNat, UInt32.toNat, UInt32.ofNat']

theorem pyToLower_idem (c : Char) : pyToLower (pyToLower c) = pyToLower c := by
  unfold pyToLower
  by_cases h : 65 ≤ c.toNat ∧ c.toNat ≤ 90
  · rw [if_pos h, if_neg]
    rw [char_toNat_ofNat (c.toNat + 32) (by omega)]
    omega
  · rw [if_neg h, if_neg h]

theorem pyToLower_toNat_le (c : Char) (h : c.toNat ≤ 127) :
    (pyToLower c).toNat ≤ 127 := by
  unfold pyToLower
  by_cases hc : 65 ≤ c.toNat ∧ c.toNat ≤ 90
  · rw [if_pos hc, char_toNat_ofNat (c.toNat + 32) (by omega)]
    omega
  · rw [if_neg hc]
    exact h

theorem pyToLower_space : pyToLower ' ' = ' ' := by decide

theorem nfkdChar_of_le (c : Char) (h : c.toNat ≤ 127) : nfkdChar c = [c] := by
  unfold nfkdChar
  rw [if_neg]
  intro hc
  rw [hc] at h
  simp [modCapitalA, char_toNat_ofNat 7468 (by omega)] at h

theorem combiningChar_of_le (c : Char) (h : c.toNat ≤ 127) :
    combiningChar c = false := by
  unfold combiningChar
  simp only [Bool.and_eq_false_iff, decide_eq_false_iff_not]
  left
  omega

theorem map_id_of_mem {α : Type*} (l : List α) (f : α → α) (h : ∀ c ∈ l, f c = c) :
    l.map f = l := by
  induction l with
  | nil => rfl
  | cons a t ih =>
    rw [List.map_cons, h a (List.mem_cons_self a t), ih (fun c hc => h c (List.mem_cons_of_mem a hc))]

theorem flatMap_id_of_mem (l : List Char) (f : Char → List Char)
    (h : ∀ c ∈ l, f c = [c]) : l.flatMap f = l := by
  induction l with
  | nil => rfl
  | cons a t ih =>
    rw [List.flatMap_cons, h a (List.mem_cons_self a t),
      ih (fun c hc => h c (List.mem_cons_of_mem a hc))]
    rfl

theorem mem_stripL (l : List Char) (c : Char) (h : c ∈ stripL l) : c ∈ l := by
  unfold stripL at h
  have h1 : c ∈ (l.dropWhile isSpacePy).reverse :=
    (List.dropWhile_sublist _).subset (List.mem_reverse.mp h)
  exact (List.dropWhile_sublist _).subset (List.mem_reverse.mp h1)

theorem mem_subWsRuns : ∀ (l : List Char) (c : Char), c ∈ subWsRuns l → c ∈ l ∨ c = ' ' := by
  intro l
  induction l with
  | nil => intro c h; simp [subWsRuns] at h
  | cons a t ih =>
    intro c h
    cases t with
    | nil =>
      by_cases ha : isSpacePy a
      · simp [subWsRuns, ha] at h
        exact Or.inr h
      · simp [subWsRuns, ha] at h
        exact Or.inl (by simp [h])
    | cons d t' =>
      by_cases ha : isSpacePy a
      · by_cases hd : isSpacePy d
        · simp only [subWsRuns, ha, if_true, hd] at h
          rcases ih c h with h2 | h2
          · exact Or.inl (List.mem_cons_of_mem _ h2)
          · exact Or.inr h2
        · simp only [subWsRuns, ha, if_true, hd, if_false] at h
          rcases List.mem_cons.mp h with rfl | h2
          · exact Or.inr rfl
          · rcases ih c h2 with h3 | h3
            · exact Or.inl (List.mem_cons_of_mem _ h3)
            · exact Or.inr h3
      · simp only [subWsRuns, ha, if_false] at h
        rcases List.mem_cons.mp h with rfl | h2
        · exact Or.inl (List.mem_cons_self _ _)
        · rcases ih c h2 with h3 | h3
          · exact Or.inl (List.mem_cons_of_mem _ h3)
          · exact Or.inr h3

theorem subWsRuns_cons_nonspace (c : Char) (l : List Char) (hc : isSpacePy c = false) :
    subWsRuns (c :: l) = c :: subWsRuns l := by
  cases l <;> simp [subWsRuns, hc]

theorem subWsRuns_append_word (w : List Char) (h : ∀ c ∈ w, isSpacePy c = false) :
    ∀ t, subWsRuns (w ++ t) = w ++ subWsRuns t := by
  induction w with
  | nil => intro t; rfl
  | cons c w' ih =>
    intro t
    rw [List.cons_append, subWsRuns_cons_nonspace c _ (h c (List.mem_cons_self c w')),
      ih (fun d hd => h d (List.mem_cons_of_mem c hd)) t, List.cons_append]

theorem wordTokenizeL_cons (c : Char) (rest : List Char) :
    wordTokenizeL (c :: rest) =
      if isSpacePy c then wordTokenizeL rest
      else consToken c rest (wordTokenizeL rest) := by
  simp only [wordTokenizeL]

theorem wordTokenizeL_cons_space (c : Char) (l : List Char) (hc : isSpacePy c = true) :
    wordTokenizeL (c :: l) = wordTokenizeL l := by
  rw [wordTokenizeL_cons, if_pos hc]

theorem wordTokenizeL_cons_nonspace :
    ∀ (l : List Char) (c : Char), isSpacePy c = false →
      wordTokenizeL (c :: l) =
        (c :: l.takeWhile (fun d => !isSpacePy d)) ::
          wordTokenizeL (l.dropWhile (fun d => !isSpacePy d)) := by
  intro l
  induction l with
  | nil =>
    intro c hc
    rw [wordTokenizeL_cons, if_neg (by simp [hc])]
    simp [consToken, wordTokenizeL]
  | cons d l' ih =>
    intro c hc
    rw [wordTokenizeL_cons, if_neg (by simp [hc])]
    by_cases hd : isSpacePy d
    · cases htok : wordTokenizeL (d :: l') with
      | nil =>
        simp [consToken, hd, List.takeWhile_cons, List.dropWhile_cons, htok]
      | cons t ts =>
        simp [consToken, hd, List.takeWhile_cons, List.dropWhile_cons, htok]
    · have hd' : isSpacePy d = false := by simpa using hd
      rw [ih d hd']
      simp [consToken, hd', List.takeWhile_cons, List.dropWhile_cons]

theorem takeWhile_eq_self_of_all {α : Type*} (p : α → Bool) :
    ∀ (l : List α), (∀ x ∈ l, p x = true) → l.takeWhile p = l := by
  intro l
  induction l with
  | nil => intro _; rfl
  | cons a t ih =>
    intro h
    rw [List.takeWhile_cons, if_pos (h a (List.mem_cons_self a t)),
      ih (fun x hx => h x (List.mem_cons_of_mem a hx))]

theorem dropWhile_eq_nil_of_all {α : Type*} (p : α → Bool) :
    ∀ (l : List α), (∀ x ∈ l, p x = true) → l.dropWhile p = [] := by
  intro l
  induction l with
  | nil => intro _; rfl
  | cons a t ih =>
    intro h
    rw [List.dropWhile_cons, if_pos (h a (List.mem_cons_self a t)),
      ih (fun x hx => h x (List.mem_cons_of_mem a hx))]

theorem takeWhile_append_stop {α : Type*} (p : α → Bool) :
    ∀ (xs : List α), (∀ x ∈ xs, p x = true) → ∀ (y : α), p y = false → ∀ (ys : List α),
      (xs ++ y :: ys).takeWhile p = xs := by
  intro xs
  induction xs with
  | nil =>
    intro _ y hy ys
    simp [List.takeWhile_cons, hy]
  | cons a t ih =>
    intro h y hy ys
    rw [List.cons_append, List.takeWhile_cons, if_pos (h a (List.mem_cons_self a t)),
      ih (fun x hx => h x (List.mem_cons_of_mem a hx)) y hy ys]

theorem dropWhile_append_stop {α : Type*} (p : α → Bool) :
    ∀ (xs : List α), (∀ x ∈ xs, p x = true) → ∀ (y : α), p y = false → ∀ (ys : List α),
      (xs ++ y :: ys).dropWhile p = y :: ys := by
  intro xs
  induction xs with
  | nil =>
    intro _ y hy ys
    simp [List.dropWhile_cons, hy]
  | cons a t ih =>
    intro h y hy ys
    rw [List.cons_append, List.dropWhile_cons, if_pos (h a (List.mem_cons_self a t)),
      ih (fun x hx => h x (List.mem_cons_of_mem a hx)) y hy ys]

theorem wordTokenizeL_facts :
    ∀ (n : ℕ) (l : List Char), l.length ≤ n → ∀ w ∈ wordTokenizeL l,
      w ≠ [] ∧ ∀ c ∈ w, isSpacePy c = false ∧ c ∈ l := by
  intro n
  induction n with
  | zero =>
    intro l hlen w hw
    have : l = [] := List.length_eq_zero.mp (Nat.le_zero.mp hlen)
    subst this
    simp [wordTokenizeL] at hw
  | succ n ih =>
    intro l hlen w hw
    cases l with
    | nil => simp [wordTokenizeL] at hw
    | cons c rest =>
      by_cases hc : isSpacePy c
      · rw [wordTokenizeL_cons_space c rest hc] at hw
        obtain ⟨h1, h2⟩ := ih rest (by simpa using Nat.le_of_succ_le_succ hlen) w hw
        exact ⟨h1, fun d hd => ⟨(h2 d hd).1, List.mem_cons_of_mem _ (h2 d hd).2⟩⟩
      · have hc' : isSpacePy c = false := by simpa using hc
        rw [wordTokenizeL_cons_nonspace rest c hc'] at hw
        rcases List.mem_cons.mp hw with rfl | hw'
        · refine ⟨by simp, ?_⟩
          intro d hd
          rcases List.mem_cons.mp hd with rfl | hd'
          · exact ⟨hc', List.mem_cons_self _ _⟩
          · have hp := List.mem_takeWhile_imp hd'
            exact ⟨by simpa using hp,
              List.mem_cons_of_mem _ ((List.takeWhile_sublist _).subset hd')⟩
        · have hdlen : (rest.dropWhile (fun d => !isSpacePy d)).length ≤ n := by
            have h1 := (@List.dropWhile_sublist Char rest (fun d => !isSpacePy d)).length_le
            have h2 : rest.length ≤ n := by simpa using Nat.le_of_succ_le_succ hlen
            omega
          obtain ⟨h1, h2⟩ := ih _ hdlen w hw'
          exact ⟨h1, fun d hd => ⟨(h2 d hd).1,
            List.mem_cons_of_mem _ ((List.dropWhile_sublist _).subset (h2 d hd).2)⟩⟩

theorem wordTokenizeL_token_facts (l : List Char) (w : List Char)
    (h : w ∈ wordTokenizeL l) :
    w ≠ [] ∧ ∀ c ∈ w, isSpacePy c = false ∧ c ∈ l :=
  wordTokenizeL_facts l.length l (Nat.le_refl _) w h

theorem joinWords_cons₂ (w v : List Char) (t : List (List Char)) :
    joinWords (w :: v :: t) = w ++ ' ' :: joinWords (v :: t) := rfl

theorem mem_joinWords :
    ∀ (ws : List (List Char)) (c : Char), c ∈ joinWords ws →
      c = ' ' ∨ ∃ w ∈ ws, c ∈ w := by
  intro ws
  induction ws with
  | nil => intro c h; simp [joinWords] at h
  | cons w t ih =>
    intro c h
    cases t with
    | nil => exact Or.inr ⟨w, List.mem_cons_self _ _, by simpa [joinWords] using h⟩
    | cons v t' =>
      rw [joinWords_cons₂] at h
      rcases List.mem_append.mp h with h1 | h2
      · exact Or.inr ⟨w, List.mem_cons_self _ _, h1⟩
      · rcases List.mem_cons.mp h2 with rfl | h3
        · exact Or.inl rfl
        · rcases ih c h3 with h4 | ⟨u, hu, hcu⟩
          · exact Or.inl h4
          · exact Or.inr ⟨u, List.mem_cons_of_mem _ hu, hcu⟩

theorem wordTokenizeL_joinWords :
    ∀ (ws : List (List Char)),
      (∀ w ∈ ws, w ≠ [] ∧ ∀ c ∈ w, isSpacePy c = false) →
      wordTokenizeL (joinWords ws) = ws := by
  intro ws
  induction ws with
  | nil => intro _; rfl
  | cons w t ih =>
    intro h
    obtain ⟨hwne, hwns⟩ := h w (List.mem_cons_self _ _)
    cases w with
    | nil => exact absurd rfl hwne
    | cons c w' =>
      have hc : isSpacePy c = false := hwns c (List.mem_cons_self _ _)
      have hw' : ∀ d ∈ w', (fun d => !isSpacePy d) d = true := by
        intro d hd
        simp [hwns d (List.mem_cons_of_mem _ hd)]
      cases t with
      | nil =>
        show wordTokenizeL (c :: w') = [c :: w']
        rw [wordTokenizeL_cons_nonspace w' c hc,
          takeWhile_eq_self_of_all _ w' hw', dropWhile_eq_nil_of_all _ w' hw']
        rfl
      | cons v t' =>
        rw [joinWords_cons₂, List.cons_append, wordTokenizeL_cons_nonspace _ c hc,
          takeWhile_append_stop _ w' hw' ' ' (by simp [isSpacePy]) _,
          dropWhile_append_stop _ w' hw' ' ' (by simp [isSpacePy]) _,
          wordTokenizeL_cons_space ' ' _ (by simp [isSpacePy]),
          ih (fun u hu => h u (List.mem_cons_of_mem _ hu))]

theorem joinWords_append_last :
    ∀ (xs : List (List Char)) (y : List Char), xs ≠ [] →
      joinWords (xs ++ [y]) = joinWords xs ++ ' ' :: y := by
  intro xs
  induction xs with
  | nil => intro y h; exact absurd rfl h
  | cons w t ih =>
    intro y _
    cases t with
    | nil => rfl
    | cons v t' =>
      show joinWords (w :: ((v :: t') ++ [y])) = (w ++ ' ' :: joinWords (v :: t')) ++ ' ' :: y
      rw [show (v :: t') ++ [y] = v :: (t' ++ [y]) from rfl, joinWords_cons₂,
        show v :: (t' ++ [y]) = (v :: t') ++ [y] from rfl,
        ih y (by simp)]
      simp [List.append_assoc]

theorem joinWords_reverse :
    ∀ (ws : List (List Char)),
      (joinWords ws).reverse = joinWords ((ws.map List.reverse).reverse) := by
  intro ws
  induction ws with
  | nil => rfl
  | cons w t ih =>
    cases t with
    | nil => simp [joinWords]
    | cons v t' =>
      have lhs : (joinWords (w :: v :: t')).reverse =
          (joinWords (v :: t')).reverse ++ ' ' :: w.reverse := by
        rw [joinWords_cons₂, List.reverse_append, List.reverse_cons]
        simp [List.append_assoc]
      have rhs : joinWords ((List.map List.reverse (w :: v :: t')).reverse) =
          joinWords ((List.map List.reverse (v :: t')).reverse) ++ ' ' :: w.reverse := by
        rw [List.map_cons, List.reverse_cons,
          joinWords_append_last _ w.reverse (by simp)]
      rw [lhs, rhs, ih]

theorem dropWhile_joinWords (ws : List (List Char))
    (h : ∀ w ∈ ws, w ≠ [] ∧ ∀ c ∈ w, isSpacePy c = false) :
    (joinWords ws).dropWhile isSpacePy = joinWords ws := by
  cases ws with
  | nil => rfl
  | cons w t =>
    obtain ⟨hne, hns⟩ := h w (List.mem_cons_self _ _)
    cases w with
    | nil => exact absurd rfl hne
    | cons c w' =>
      have hc : isSpacePy c = false := hns c (List.mem_cons_self _ _)
      cases t with
      | nil => simp [joinWords, List.dropWhile_cons, hc]
      | cons v t' =>
        rw [joinWords_cons₂, List.cons_append]
        simp [List.dropWhile_cons, hc]

theorem stripL_joinWords (ws : List (List Char))
    (h : ∀ w ∈ ws, w ≠ [] ∧ ∀ c ∈ w, isSpacePy c = false) :
    stripL (joinWords ws) = joinWords ws := by
  have hrev : ∀ w ∈ (ws.map List.reverse).reverse, w ≠ [] ∧ ∀ c ∈ w, isSpacePy c = false := by
    intro w hw
    rw [List.mem_reverse] at hw
    obtain ⟨u, hu, rfl⟩ := List.mem_map.mp hw
    refine ⟨by simpa [List.reverse_eq_nil_iff] using (h u hu).1, ?_⟩
    intro c hc
    exact (h u hu).2 c (List.mem_reverse.mp hc)
  unfold stripL
  rw [dropWhile_joinWords ws h, joinWords_reverse, dropWhile_joinWords _ hrev,
    ← joinWords_reverse, List.reverse_reverse]

theorem subWsRuns_space_cons (d : Char) (rest : List Char) (hd : isSpacePy d = false) :
    subWsRuns (' ' :: d :: rest) = ' ' :: subWsRuns (d :: rest) := by
  simp only [subWsRuns]
  rw [if_pos (show isSpacePy ' ' = true from by decide), if_neg (by simp [hd])]

theorem joinWords_shape (c : Char) (w0 : List Char) (ws : List (List Char)) :
    ∃ rest, joinWords ((c :: w0) :: ws) = c :: rest := by
  cases ws with
  | nil => exact ⟨w0, rfl⟩
  | cons v t => exact ⟨w0 ++ ' ' :: joinWords (v :: t), rfl⟩

theorem subWsRuns_joinWords :
    ∀ (ws : List (List Char)),
      (∀ w ∈ ws, w ≠ [] ∧ ∀ c ∈ w, isSpacePy c = false) →
      subWsRuns (joinWords ws) = joinWords ws := by
  intro ws
  induction ws with
  | nil => intro _; rfl
  | cons w t ih =>
    intro h
    obtain ⟨hne, hns⟩ := h w (List.mem_cons_self _ _)
    cases t with
    | nil =>
      show subWsRuns (joinWords [w]) = joinWords [w]
      have := subWsRuns_append_word w hns []
      simpa [joinWords, subWsRuns] using this
    | cons v t' =>
      rw [joinWords_cons₂, subWsRuns_append_word w hns]
      congr 1
      obtain ⟨hvne, hvns⟩ := h v (List.mem_cons_of_mem _ (List.mem_cons_self _ _))
      cases v with
      | nil => exact absurd rfl hvne
      | cons cv v0 =>
        have hcv : isSpacePy cv = false := hvns cv (List.mem_cons_self _ _)
        obtain ⟨rest, hrest⟩ := joinWords_shape cv v0 t'
        rw [hrest, subWsRuns_space_cons cv rest hcv, ← hrest,
          ih (fun u hu => h u (List.mem_cons_of_mem _ hu))]

theorem normalizePipeline_fixed (ws : List (List Char)) (h : GoodWords ws) :
    normalizePipeline ⟨joinWords ws⟩ = ⟨joinWords ws⟩ := by
  have hbasic : ∀ w ∈ ws, w ≠ [] ∧ ∀ c ∈ w, isSpacePy c = false :=
    fun w hw => ⟨(h w hw).1, fun c hc => ((h w hw).2.1 c hc).1⟩
  have hmem : ∀ c ∈ joinWords ws, isPunctPy c = false ∧ c.toNat ≤ 127 ∧ pyToLower c = c := by
    intro c hc
    rcases mem_joinWords ws c hc with rfl | ⟨w, hw, hcw⟩
    · exact ⟨by decide, by decide, by decide⟩
    · obtain ⟨_, hchars, _⟩ := h w hw
      exact ⟨(hchars c hcw).2.1, (hchars c hcw).2.2.1, (hchars c hcw).2.2.2⟩
  apply String.ext
  show removeStopwordsL (removePunctuationL (normalizeUnicodeL (cleanTextL (joinWords ws)))) =
    joinWords ws
  have h1 : cleanTextL (joinWords ws) = joinWords ws := by
    unfold cleanTextL
    rw [map_id_of_mem _ _ (fun c hc => (hmem c hc).2.2), stripL_joinWords ws hbasic]
  rw [h1]
  have h2a : (joinWords ws).flatMap nfkdChar = joinWords ws :=
    flatMap_id_of_mem _ _ (fun c hc => nfkdChar_of_le c (hmem c hc).2.1)
  have h2b : (joinWords ws).filter (fun c => !combiningChar c) = joinWords ws :=
    List.filter_eq_self.mpr (fun c hc => by simp [combiningChar_of_le c (hmem c hc).2.1])
  have h2c : (joinWords ws).filter (fun c => decide (c.toNat ≤ 127)) = joinWords ws :=
    List.filter_eq_self.mpr (fun c hc => by simp [(hmem c hc).2.1])
  have h2 : normalizeUnicodeL (joinWords ws) = joinWords ws := by
    unfold normalizeUnicodeL
    rw [h2a, h2b, h2c, subWsRuns_joinWords ws hbasic, stripL_joinWords ws hbasic]
  rw [h2]
  have h3 : removePunctuationL (joinWords ws) = joinWords ws := by
    unfold removePunctuationL
    exact List.filter_eq_self.mpr (fun c hc => by simp [(hmem c hc).1])
  rw [h3]
  have h4 : ws.filter (fun w => !decide (w.map pyToLower ∈ stopLists)) = ws :=
    List.filter_eq_self.mpr (fun w hw => by simp [(h w hw).2.2])
  unfold removeStopwordsL
  rw [wordTokenizeL_joinWords ws hbasic, h4]

theorem normalizePipeline_shape (x : String) (hx : ∀ c ∈ x.data, c.toNat ≤ 127) :
    ∃ ws, GoodWords ws ∧ (normalizePipeline x).data = joinWords ws := by
  have hclean : ∀ c ∈ cleanTextL x.data, c.toNat ≤ 127 ∧ pyToLower c = c := by
    intro c hc
    have hc2 := mem_stripL _ c hc
    obtain ⟨d, hd, rfl⟩ := List.mem_map.mp hc2
    exact ⟨pyToLower_toNat_le d (hx d hd), pyToLower_idem d⟩
  have hnorm : ∀ c ∈ normalizeUnicodeL (cleanTextL x.data), c.toNat ≤ 127 ∧ pyToLower c = c := by
    intro c hc
    unfold normalizeUnicodeL at hc
    have hc2 := mem_stripL _ c hc
    rcases mem_subWsRuns _ c hc2 with hc3 | rfl
    · have hc4 := (List.mem_filter.mp hc3).1
      obtain ⟨d, hd, hcd⟩ := List.mem_flatMap.mp (List.mem_filter.mp hc4).1
      have hda := hclean d hd
      rw [nfkdChar_of_le d hda.1] at hcd
      rw [List.mem_singleton.mp hcd]
      exact hda
    · exact ⟨by decide, by decide⟩
  have hpunct : ∀ c ∈ removePunctuationL (normalizeUnicodeL (cleanTextL x.data)),
      isPunctPy c = false ∧ c.toNat ≤ 127 ∧ pyToLower c = c := by
    intro c hc
    unfold removePunctuationL at hc
    obtain ⟨hc1, hc2⟩ := List.mem_filter.mp hc
    exact ⟨by simpa using hc2, hnorm c hc1⟩
  refine ⟨(wordTokenizeL (removePunctuationL (normalizeUnicodeL (cleanTextL x.data)))).filter
    (fun w => !decide (w.map pyToLower ∈ stopLists)), ?_, rfl⟩
  intro w hw
  obtain ⟨hw1, hw2⟩ := List.mem_filter.mp hw
  obtain ⟨hne, hfacts⟩ := wordTokenizeL_token_facts _ w hw1
  refine ⟨hne, ?_, by simpa using hw2⟩
  intro c hc
  obtain ⟨hcs, hcy⟩ := hfacts c hc
  obtain ⟨hp, ha, hf⟩ := hpunct c hcy
  exact ⟨hcs, hp, ha, hf⟩

/-- Claim C6 (amended: for ASCII input text): the four-stage normalizer
`remove_stopwords ∘ remove_punctuation ∘ normalize_unicode ∘ clean_text` is
idempotent on every text all of whose characters are ASCII. -/
theorem c6_normalizer_idempotent_ascii (x : String)
    (hx : ∀ c ∈ x.data, c.toNat ≤ 127) :
    normalizePipeline (normalizePipeline x) = normalizePipeline x := by
  obtain ⟨ws, hgood, hshape⟩ := normalizePipeline_shape x hx
  have hx2 : normalizePipeline x = ⟨joinWords ws⟩ := String.ext hshape
  rw [hx2, normalizePipeline_fixed ws hgood]

/-- Claim C6, counterexample: the normalizer is not idempotent on arbitrary
Unicode text. For the input `"ᴬpple"` (U+1D2C MODIFIER LETTER CAPITAL A, which
has no lowercase mapping and NFKD-decomposes to the ASCII letter `A` *after*
the case-folding stage has already run), one pass yields `"Apple"` while a
second pass lower-cases it to `"apple"`. -/
theorem c6_counterexample :
    normalizePipeline (normalizePipeline "ᴬpple") ≠ normalizePipeline "ᴬpple" := by
  decide

/-- Claim C6, witness: idempotence at a concrete ASCII text. -/
theorem c6_normalizer_idempotent_witness :
    (∀ c ∈ ("The quick fox  the fox" : String).data, c.toNat ≤ 127) ∧
    normalizePipeline (normalizePipeline "The quick fox  the fox") =
      normalizePipeline "The quick fox  the fox" :=
  ⟨by decide, c6_normalizer_idempotent_ascii "The quick fox  the fox" (by decide)⟩

end DataIndexing
